import Mathlib

/-!
Verification of the message-db versioned datastore (`mdb`), shallowly embedded
from the Python sources:

* `mdb/data/repo.py` — the zipper (working view, changesets, checkpoints,
  transactions),
* `mdb/data/store/memory.py`, `static.py`, `fsdir.py` — backing stores,
* `mdb/avro/schema.py`, `marshall.py` — schema inheritance and the binary codec.

Python dictionaries and the sorted `tree` mapping of the `md` library are
modelled as association lists with the lookup/insert/erase operations used by
the source; exceptions are modelled with `Except`.
-/

namespace MDB

/-! ### Association-list primitives

`tree` (the sorted mapping used for manifests and changesets) and plain Python
dicts are modelled as association lists with unique keys.  `alookup` is
`__getitem__` / `get`, `aset` is item assignment, `aeraseAll` is `pop`. -/

def alookup {α : Type} : List (String × α) → String → Option α
  | [], _ => none
  | (k, v) :: rest, k' => if k = k' then some v else alookup rest k'

def aset {α : Type} : List (String × α) → String → α → List (String × α)
  | [], k, v => [(k, v)]
  | (k', v') :: rest, k, v =>
      if k' = k then (k, v) :: rest else (k', v') :: aset rest k v

def aeraseAll {α : Type} : List (String × α) → String → List (String × α)
  | [], _ => []
  | (k0, v0) :: rest, k =>
      if k0 = k then aeraseAll rest k else (k0, v0) :: aeraseAll rest k

theorem alookup_aset {α : Type} (l : List (String × α)) (k k' : String) (v : α) :
    alookup (aset l k v) k' = if k = k' then some v else alookup l k' := by
  induction l with
  | nil => simp [aset, alookup]
  | cons p rest ih =>
      obtain ⟨k0, v0⟩ := p
      unfold aset
      by_cases h0 : k0 = k
      · rw [if_pos h0]
        subst h0
        by_cases h : k0 = k' <;> simp [alookup, h]
      · rw [if_neg h0]
        by_cases h : k0 = k'
        · have hk : ¬ k = k' := fun he => h0 (h.trans he.symm)
          simp [alookup, h, hk]
        · simp [alookup, h, ih]

theorem alookup_aeraseAll {α : Type} (l : List (String × α)) (k k' : String) :
    alookup (aeraseAll l k) k' = if k = k' then none else alookup l k' := by
  induction l with
  | nil => simp [aeraseAll, alookup]
  | cons p rest ih =>
      obtain ⟨k0, v0⟩ := p
      unfold aeraseAll
      by_cases h0 : k0 = k
      · rw [if_pos h0, ih]
        subst h0
        by_cases h : k0 = k' <;> simp [alookup, h]
      · rw [if_neg h0]
        by_cases h : k0 = k'
        · have hk : ¬ k = k' := fun he => h0 (h.trans he.symm)
          simp [alookup, h, hk]
        · simp [alookup, h, ih]

theorem alookup_mem {α : Type} :
    ∀ {l : List (String × α)} {k : String} {v : α},
      alookup l k = some v → (k, v) ∈ l := by
  intro l
  induction l with
  | nil => intro k v h; simp [alookup] at h
  | cons p rest ih =>
      intro k v h
      obtain ⟨k0, v0⟩ := p
      by_cases h0 : k0 = k
      · subst h0
        simp [alookup] at h
        simp [h]
      · simp [alookup, h0] at h
        exact List.mem_cons_of_mem _ (ih h)

/-! ### Keys, static references, and the working view (`mdb/data/repo.py`)

A `Key` is compared by its base64 string form, so it is modelled as a string.
`sref` is a static reference; `Deleted` is the sentinel `sref('deleted')`.
`Undefined` results are modelled by `Option.none`. -/

abbrev Key := String

structure sref where
  address : String
deriving DecidableEq, Repr

def Deleted : sref := ⟨"deleted"⟩

abbrev RefMap := List (Key × sref)

/-- `working.get` from `repo.py`: try the changeset, fall back to the manifest
with `Undefined` as default, and map a `Deleted` result to the default. -/
def working_get (changes manifest : RefMap) (key : Key) : Option sref :=
  let value : Option sref :=
    match alookup changes key with
    | some v => some v
    | none => alookup manifest key
  if value = some Deleted then none else value

/-- Claim C1 as stated by the spec: the working view gives `changes[k]` when
present and not `Deleted`, otherwise `manifest[k]` when present, otherwise
`Undefined`. -/
def C1Prop : Prop :=
  ∀ (changes manifest : RefMap) (key : Key),
    working_get changes manifest key =
      match alookup changes key with
      | some v => if v = Deleted then alookup manifest key else some v
      | none => alookup manifest key

/-- C1 counterexample: with `changes = [b ↦ Deleted]` and `manifest = [b ↦ r]`,
the working view hides `b` entirely (`Undefined`), while the claim as stated
demands the manifest value `r`.  This matches the module's own doctest
(`index.get('b')` is `<undefined>`). -/
theorem working_get_deleted_shadows_counterexample : ¬ C1Prop := by
  intro h
  have := h [("b", Deleted)] [("b", ⟨"r"⟩)] "b"
  simp [working_get, alookup, Deleted] at this

/-- C1 amended: for a manifest that contains no `Deleted` entries (as every
manifest produced by `make_manifest` does), the working view equals the
changeset entry unless it is `Deleted` (which hides the key), and otherwise
falls back to the manifest. -/
theorem working_get_spec (changes manifest : RefMap) (key : Key)
    (hm : ∀ p ∈ manifest, p.2 ≠ Deleted) :
    working_get changes manifest key =
      match alookup changes key with
      | some v => if v = Deleted then none else some v
      | none => alookup manifest key := by
  have hmk : ∀ v, alookup manifest key = some v → v ≠ Deleted := by
    intro v hv
    exact hm (key, v) (alookup_mem hv)
  unfold working_get
  cases hc : alookup changes key with
  | some v =>
      by_cases hd : v = Deleted <;> simp [hc, hd]
  | none =>
      cases hv : alookup manifest key with
      | some v => simp [hc, hv, hmk v hv]
      | none => simp [hc, hv]

/-- C1 witness: a closed instance of the amended statement. -/
theorem working_get_spec_witness :
    working_get [("a", sref.mk "x")] [("b", sref.mk "y")] "b" =
      match alookup [("a", sref.mk "x")] "b" with
      | some v => if v = Deleted then none else some v
      | none => alookup [("b", sref.mk "y")] "b" :=
  working_get_spec [("a", sref.mk "x")] [("b", sref.mk "y")] "b"
    (by intro p hp; simp at hp; simp [hp, Deleted])

/-! ### Changeset normalization (`make_changeset`, `repo.py`)

`make_changeset(manifest, changes, updates)` copies the current changeset and
folds the updates into it: a `Deleted` update for a key absent from the
manifest pops the key, every other update assigns it. -/

def make_changeset (manifest changes : RefMap) (updates : List (Key × sref)) : RefMap :=
  updates.foldl
    (fun acc kv =>
      if kv.2 = Deleted ∧ alookup manifest kv.1 = none
      then aeraseAll acc kv.1
      else aset acc kv.1 kv.2)
    changes

theorem alookup_make_changeset_skip (manifest : RefMap) (k : Key) :
    ∀ (updates : List (Key × sref)) (changes : RefMap),
      (∀ p ∈ updates, p.1 ≠ k) →
      alookup (make_changeset manifest changes updates) k = alookup changes k := by
  intro updates
  induction updates with
  | nil => intro changes _; rfl
  | cons kv rest ih =>
      intro changes hu
      have hk : kv.1 ≠ k := hu kv (by simp)
      have step :
          make_changeset manifest changes (kv :: rest) =
            make_changeset manifest
              (if kv.2 = Deleted ∧ alookup manifest kv.1 = none
               then aeraseAll changes kv.1
               else aset changes kv.1 kv.2) rest := by
        simp [make_changeset]
      rw [step, ih _ (fun p hp => hu p (by simp [hp]))]
      by_cases hd : kv.2 = Deleted ∧ alookup manifest kv.1 = none
      · simp [hd, alookup_aeraseAll, hk]
      · simp [hd, alookup_aset, hk]

/-- Claim C5: in `make_changeset(m, c, u)` an update `k ↦ Deleted` for a key
absent from the manifest removes `k` from the changeset; every other update
sets the entry to its ref; keys not updated keep their changeset value. -/
theorem make_changeset_spec (manifest changes : RefMap)
    (updates : List (Key × sref)) (k : Key)
    (hu : (updates.map Prod.fst).Nodup) :
    alookup (make_changeset manifest changes updates) k =
      match alookup updates k with
      | some r =>
          if r = Deleted ∧ alookup manifest k = none then none else some r
      | none => alookup changes k := by
  induction updates generalizing changes with
  | nil => rfl
  | cons kv rest ih =>
      obtain ⟨k0, r0⟩ := kv
      have hnodup : (rest.map Prod.fst).Nodup := (List.nodup_cons.mp hu).2
      have hk0 : k0 ∉ rest.map Prod.fst := (List.nodup_cons.mp hu).1
      have step :
          make_changeset manifest changes ((k0, r0) :: rest) =
            make_changeset manifest
              (if r0 = Deleted ∧ alookup manifest k0 = none
               then aeraseAll changes k0
               else aset changes k0 r0) rest := by
        simp [make_changeset]
      rw [step]
      by_cases hke : k0 = k
      · subst hke
        have hrest : ∀ p ∈ rest, p.1 ≠ k0 := by
          intro p hp he
          exact hk0 (he ▸ List.mem_map_of_mem Prod.fst hp)
        rw [alookup_make_changeset_skip manifest k0 rest _ hrest]
        have hl : alookup ((k0, r0) :: rest) k0 = some r0 := by simp [alookup]
        rw [hl]
        by_cases hd : r0 = Deleted ∧ alookup manifest k0 = none
        · simp [hd, alookup_aeraseAll]
        · simp [hd, alookup_aset]
      · have hl : alookup ((k0, r0) :: rest) k = alookup rest k := by
          simp [alookup, hke]
        rw [hl, ih _ hnodup]
        by_cases hd : r0 = Deleted ∧ alookup manifest k0 = none
        · simp [hd, alookup_aeraseAll, hke]
        · simp [hd, alookup_aset, hke]

/-- C5 witness: a `Deleted` update for a key absent from the manifest removes
the existing changeset entry. -/
theorem make_changeset_spec_witness :
    alookup
      (make_changeset [("m", sref.mk "r1")] [("x", sref.mk "r2")]
        [("x", Deleted)]) "x" =
      match alookup [("x", Deleted)] "x" with
      | some r =>
          if r = Deleted ∧ alookup [("m", sref.mk "r1")] "x" = none
          then none else some r
      | none => alookup [("x", sref.mk "r2")] "x" :=
  make_changeset_spec [("m", sref.mk "r1")] [("x", sref.mk "r2")]
    [("x", Deleted)] "x" (by simp)

/-! ### Checkpoint history (`repo.py`)

Commits and checkpoints are immutable records in the content-addressed static
space; a static ref determines its object uniquely, so the linked list of
history records is embedded by value: the `prev` field holds the referenced
records themselves. -/

inductive CommitT where
  | mk : String → Nat → String → RefMap → List CommitT → CommitT
deriving Repr

inductive CheckpointT where
  | mk : String → Nat → String → RefMap → List CommitT → List CheckpointT →
      CheckpointT
deriving Repr

def CheckpointT.changes : CheckpointT → RefMap
  | .mk _ _ _ c _ _ => c

def CheckpointT.commits : CheckpointT → List CommitT
  | .mk _ _ _ _ cs _ => cs

def CheckpointT.prev : CheckpointT → List CheckpointT
  | .mk _ _ _ _ _ p => p

/-- `make_checkpoint(zs, changes, commits, *prev)`: author, timestamp, and
message come from the zipper and fluids and are passed as parameters. -/
def make_checkpoint (author : String) (at_ : Nat) (msg : String)
    (changes : RefMap) (commits : List CommitT) (prev : List CheckpointT) :
    CheckpointT :=
  .mk author at_ msg changes commits prev

/-- `next_checkpoint(zs, changes)`: keep the current checkpoint when the
changeset is empty, else chain a new checkpoint whose `prev` is the current
checkpoint. -/
def next_checkpoint (author : String) (at_ : Nat) (msg : String)
    (check : CheckpointT) (changes : RefMap) : CheckpointT :=
  if changes.isEmpty then check
  else make_checkpoint author at_ msg changes check.commits [check]

/-- `amend_checkpoint(zs, changes)`: keep the current checkpoint when the
changeset is empty, else replace it, reusing its `prev` list. -/
def amend_checkpoint (author : String) (at_ : Nat) (msg : String)
    (check : CheckpointT) (changes : RefMap) : CheckpointT :=
  if changes.isEmpty then check
  else make_checkpoint author at_ msg changes check.commits check.prev

/-- The number of checkpoints reachable from a checkpoint through `prev`
links.  `checkpoints(zs)` traverses `prev` ancestors starting at the head;
the checkpoints this module builds form a linear chain (each `prev` has at
most one element), on which the breadth-first `ancestors` traversal visits
exactly this chain. -/
def chainLength : CheckpointT → Nat
  | .mk _ _ _ _ _ [] => 1
  | .mk _ _ _ _ _ (p :: _) => 1 + chainLength p

/-- Claim C7 as stated: for every delta, the amended checkpoint keeps the
current `prev`, the chained checkpoint has the current checkpoint as `prev`,
and the checkpoint count is preserved and incremented respectively. -/
def C7Prop : Prop :=
  ∀ (author : String) (at_ : Nat) (msg : String) (check : CheckpointT)
    (changes : RefMap),
    (amend_checkpoint author at_ msg check changes).prev = check.prev ∧
    (next_checkpoint author at_ msg check changes).prev = [check] ∧
    chainLength (next_checkpoint author at_ msg check changes) =
      chainLength check + 1 ∧
    chainLength (amend_checkpoint author at_ msg check changes) =
      chainLength check

/-- C7 counterexample: with an empty computed changeset `next_checkpoint`
returns the current checkpoint unchanged, so its `prev` is `[]`, not
`[check]`, and the checkpoint count does not grow. -/
theorem next_checkpoint_empty_counterexample : ¬ C7Prop := by
  intro h
  have := (h "a" 0 "" (.mk "a" 0 "" [] [] []) []).2.1
  simp [next_checkpoint, CheckpointT.prev] at this

/-- C7 amended: for every delta whose computed changeset is nonempty,
`amend` keeps the current checkpoint's `prev` (and the checkpoint count),
while `checkpoint` chains the current checkpoint (incrementing the count). -/
theorem amend_vs_checkpoint (author : String) (at_ : Nat) (msg : String)
    (check : CheckpointT) (changes : RefMap) (h : changes ≠ []) :
    (amend_checkpoint author at_ msg check changes).prev = check.prev ∧
    (next_checkpoint author at_ msg check changes).prev = [check] ∧
    chainLength (next_checkpoint author at_ msg check changes) =
      chainLength check + 1 ∧
    chainLength (amend_checkpoint author at_ msg check changes) =
      chainLength check := by
  have hne : changes.isEmpty = false := by
    cases changes with
    | nil => exact absurd rfl h
    | cons a l => rfl
  refine ⟨?_, ?_, ?_, ?_⟩
  · simp [amend_checkpoint, make_checkpoint, hne, CheckpointT.prev]
  · simp [next_checkpoint, make_checkpoint, hne, CheckpointT.prev]
  · simp [next_checkpoint, make_checkpoint, hne]
    cases check with
    | mk a t m c cs p => simp [chainLength, Nat.add_comm]
  · simp [amend_checkpoint, make_checkpoint, hne]
    cases check with
    | mk a t m c cs p =>
        cases p with
        | nil => simp [chainLength, CheckpointT.prev]
        | cons q rest => simp [chainLength, CheckpointT.prev]

/-- C7 witness: a closed instance of the amended statement. -/
theorem amend_vs_checkpoint_witness :
    ([("k", sref.mk "r")] : RefMap) ≠ [] ∧
    chainLength
      (next_checkpoint "a" 1 "" (.mk "a" 0 "" [] [] []) [("k", sref.mk "r")]) =
      chainLength (.mk "a" 0 "" [] [] []) + 1 :=
  ⟨by simp,
   (amend_vs_checkpoint "a" 1 "" (.mk "a" 0 "" [] [] [])
      [("k", sref.mk "r")] (by simp)).2.2.1⟩

/-! ### The in-memory backing store (`mdb/data/store/memory.py`)

`memory` keeps a data dict and a per-key CAS counter dict.  `gets` lazily
seeds the counter with `setdefault(key, 0)`; every `set` on a key that has a
counter increments it.  Store errors carry the offending key. -/

inductive StoreErr where
  | notStored (key : String)
  | notFound (key : String)
  | nameError
deriving DecidableEq, Repr

structure MemStore (V : Type) where
  data : List (String × V)
  cas : List (String × Nat)
deriving DecidableEq, Repr

def memGet {V : Type} (st : MemStore V) (key : String) : Option V :=
  alookup st.data key

def memGets {V : Type} (st : MemStore V) (key : String) :
    (Option V × Option Nat) × MemStore V :=
  match alookup st.data key with
  | none => ((none, none), st)
  | some v =>
      match alookup st.cas key with
      | some t => ((some v, some t), st)
      | none => ((some v, some 0), { st with cas := aset st.cas key 0 })

def memSet {V : Type} (st : MemStore V) (key : String) (v : V) : MemStore V :=
  { data := aset st.data key v,
    cas :=
      match alookup st.cas key with
      | some t => aset st.cas key (t + 1)
      | none => st.cas }

def memAdd {V : Type} (st : MemStore V) (key : String) (v : V) :
    Except StoreErr (MemStore V) :=
  if (alookup st.data key).isSome then .error (.notStored key)
  else .ok (memSet st key v)

def memReplace {V : Type} (st : MemStore V) (key : String) (v : V) :
    Except StoreErr (MemStore V) :=
  if (alookup st.data key).isNone then .error (.notStored key)
  else .ok (memSet st key v)

def memCas {V : Type} (st : MemStore V) (key : String) (v : V)
    (token : Option Nat) : Except StoreErr (MemStore V) :=
  match alookup st.cas key with
  | none => .error (.notStored key)
  | some t => if token = some t then .ok (memSet st key v)
              else .error (.notStored key)

def memDelete {V : Type} (st : MemStore V) (key : String) :
    Except StoreErr (MemStore V) :=
  if (alookup st.data key).isNone then .error (.notFound key)
  else .ok { st with data := aeraseAll st.data key }

/-! ### The transaction protocol (`zipper.end_transaction`, `repo.py`)

The zipper keeps its state and its static objects in one backing store: the
`HEAD` key holds a marshalled `sref` and keys prefixed with `objects/` hold
marshalled objects.  Serialization of a checkpoint (`dumpCheck`), the SHA-1
digest (`digest`), and the marshalled form of an `sref` (`dumpRef`) are
parameters: the proofs use only that they are functions. -/

abbrev Bytes := List Nat

inductive TxErr where
  | transactionFailed
deriving DecidableEq, Repr

/-- `refput(zs, check)` = `zs._objects.put(check)`: store the serialized
checkpoint at its digest under the `objects/` prefix, swallowing `NotStored`
(the write-once space treats duplicates as success). -/
def refput {C : Type} (dumpCheck : C → Bytes) (digest : Bytes → String)
    (st : MemStore Bytes) (check : C) : String × MemStore Bytes :=
  let addr := digest (dumpCheck check)
  match memAdd st ("objects/" ++ addr) (dumpCheck check) with
  | .ok st' => (addr, st')
  | .error _ => (addr, st)

/-- `zipper.end_transaction((head, token), check)`: store the checkpoint,
return `false` when the new head equals the old head, else CAS `HEAD`,
translating `NotStored` into `TransactionFailed`. -/
def end_transaction {C : Type} (dumpCheck : C → Bytes)
    (digest : Bytes → String) (dumpRef : String → Bytes)
    (st : MemStore Bytes) (head : Option String) (token : Option Nat)
    (check : C) : Except TxErr (MemStore Bytes × Bool) :=
  if some (refput dumpCheck digest st check).1 = head
  then .ok ((refput dumpCheck digest st check).2, false)
  else
    match memCas (refput dumpCheck digest st check).2 "HEAD"
        (dumpRef (refput dumpCheck digest st check).1) token with
    | .ok st' => .ok (st', true)
    | .error _ => .error .transactionFailed

theorem refput_fst {C : Type} (dumpCheck : C → Bytes)
    (digest : Bytes → String) (st : MemStore Bytes) (check : C) :
    (refput dumpCheck digest st check).1 = digest (dumpCheck check) := by
  unfold refput memAdd
  cases h : alookup st.data ("objects/" ++ digest (dumpCheck check)) <;> simp [h]

theorem refput_data {C : Type} (dumpCheck : C → Bytes)
    (digest : Bytes → String) (st : MemStore Bytes) (check : C)
    (k' : String) :
    alookup (refput dumpCheck digest st check).2.data k' =
      if ("objects/" ++ digest (dumpCheck check)) = k' ∧
         alookup st.data ("objects/" ++ digest (dumpCheck check)) = none
      then some (dumpCheck check)
      else alookup st.data k' := by
  unfold refput memAdd
  cases h : alookup st.data ("objects/" ++ digest (dumpCheck check)) with
  | some v => simp [h]
  | none =>
      simp only [h, Option.isSome_none, Bool.false_eq_true, if_false]
      by_cases hk : ("objects/" ++ digest (dumpCheck check) : String) = k' <;>
        simp [memSet, alookup_aset, hk]

theorem refput_cas {C : Type} (dumpCheck : C → Bytes)
    (digest : Bytes → String) (st : MemStore Bytes) (check : C)
    (k' : String) (hk : k' ≠ "objects/" ++ digest (dumpCheck check)) :
    alookup (refput dumpCheck digest st check).2.cas k' =
      alookup st.cas k' := by
  unfold refput memAdd
  cases h : alookup st.data ("objects/" ++ digest (dumpCheck check)) with
  | some v => simp [h]
  | none =>
      simp only [h, Option.isSome_none, Bool.false_eq_true, if_false]
      unfold memSet
      cases hc : alookup st.cas ("objects/" ++ digest (dumpCheck check)) with
      | none => simp
      | some t =>
          simp only [alookup_aset]
          rw [if_neg
            (fun h : ("objects/" ++ digest (dumpCheck check) : String) = k' =>
              hk h.symm)]

/-- Claim C2: `end_transaction` first stores the checkpoint in the static
space, returns `false` without touching `HEAD` when the new head equals the
old one, performs the CAS otherwise, and raises `TransactionFailed` exactly
when the CAS token check fails, leaving `HEAD` unchanged. -/
theorem end_transaction_spec {C : Type} (dumpCheck : C → Bytes)
    (digest : Bytes → String) (dumpRef : String → Bytes)
    (st : MemStore Bytes) (head : Option String) (token : Option Nat)
    (check : C) :
    let addr := digest (dumpCheck check)
    let st1 := (refput dumpCheck digest st check).2
    (alookup st.data ("objects/" ++ addr) = none →
       alookup st1.data ("objects/" ++ addr) = some (dumpCheck check)) ∧
    (head = some addr →
       end_transaction dumpCheck digest dumpRef st head token check =
         .ok (st1, false) ∧
       alookup st1.data "HEAD" = alookup st.data "HEAD") ∧
    (head ≠ some addr →
       ((∃ t, alookup st1.cas "HEAD" = some t ∧ token = some t) →
          end_transaction dumpCheck digest dumpRef st head token check =
            .ok (memSet st1 "HEAD" (dumpRef addr), true)) ∧
       (¬ (∃ t, alookup st1.cas "HEAD" = some t ∧ token = some t) →
          end_transaction dumpCheck digest dumpRef st head token check =
            .error .transactionFailed ∧
          alookup st1.data "HEAD" = alookup st.data "HEAD")) := by
  intro addr st1
  have hput1 : (refput dumpCheck digest st check).1 = addr :=
    refput_fst dumpCheck digest st check
  have hobj : ("objects/" ++ addr : String) ≠ "HEAD" := by
    intro h
    have hlen := congrArg String.length h
    rw [String.length_append] at hlen
    have h8 : "objects/".length = 8 := rfl
    have h4 : "HEAD".length = 4 := rfl
    omega
  have hhead : alookup st1.data "HEAD" = alookup st.data "HEAD" := by
    show alookup (refput dumpCheck digest st check).2.data "HEAD" = _
    rw [refput_data]
    rw [if_neg]
    rintro ⟨he, -⟩
    exact hobj he
  refine ⟨?_, ?_, ?_⟩
  · intro hnone
    show alookup (refput dumpCheck digest st check).2.data _ = _
    rw [refput_data]
    rw [if_pos ⟨rfl, hnone⟩]
  · intro he
    constructor
    · unfold end_transaction
      rw [hput1, if_pos he.symm]
    · exact hhead
  · intro hne
    have hcond : ¬ some (refput dumpCheck digest st check).1 = head := by
      rw [hput1]
      exact fun h => hne h.symm
    constructor
    · rintro ⟨t, hc, ht⟩
      unfold end_transaction
      rw [if_neg hcond]
      show (match memCas st1 "HEAD"
            (dumpRef (refput dumpCheck digest st check).1) token with
            | .ok st' => Except.ok (st', true)
            | .error _ => Except.error TxErr.transactionFailed) =
          Except.ok (memSet st1 "HEAD" (dumpRef addr), true)
      rw [hput1]
      unfold memCas
      rw [show alookup st1.cas "HEAD" = some t from hc]
      simp [ht]
    · intro hno
      constructor
      · unfold end_transaction
        rw [if_neg hcond]
        show (match memCas st1 "HEAD"
              (dumpRef (refput dumpCheck digest st check).1) token with
              | .ok st' => Except.ok (st', true)
              | .error _ => Except.error TxErr.transactionFailed) =
            Except.error TxErr.transactionFailed
        unfold memCas
        cases hc : alookup st1.cas "HEAD" with
        | none => rfl
        | some t =>
            have ht : ¬ token = some t := fun h => hno ⟨t, hc, h⟩
            simp [ht]
      · exact hhead

/-- C2 witness: a stale token (`none` against a seeded counter) raises
`TransactionFailed` and leaves `HEAD` untouched. -/
theorem end_transaction_spec_witness :
    end_transaction (fun _ : Nat => [7]) (fun _ => "h") (fun _ => [1])
        ⟨[("HEAD", [1])], [("HEAD", 4)]⟩ (some "old") none 0 =
      .error .transactionFailed ∧
    alookup (refput (fun _ : Nat => [7]) (fun _ => "h")
        ⟨[("HEAD", [1])], [("HEAD", 4)]⟩ 0).2.data "HEAD" =
      alookup (⟨[("HEAD", [1])], [("HEAD", 4)]⟩ : MemStore Bytes).data "HEAD" :=
  ((end_transaction_spec (fun _ : Nat => [7]) (fun _ => "h") (fun _ => [1])
      ⟨[("HEAD", [1])], [("HEAD", 4)]⟩ (some "old") none 0).2.2
    (by decide)).2
    (by
      rintro ⟨t, hc, ht⟩
      cases ht)

/-! ### The content-addressed static store (`mdb/data/store/static.py`)

`static` wraps a backing store: objects are serialized (`dumps`), hashed
(`digest` models `sha1(...).hexdigest()`), stored under `prefix + address`
with `add`, and memoized in a read-through cache that also records misses
(`Undefined`, modelled as `none`).  Once the cache exceeds `cacheSize` it is
cleared wholesale before inserting. -/

structure StaticState (V : Type) where
  back : MemStore Bytes
  cache : List (String × Option V)
deriving Repr

/-- `static._cached(address, value)`: clear an over-full cache, then
`setdefault`. -/
def static_cached {V : Type} (cacheSize : Nat)
    (cache : List (String × Option V)) (addr : String) (v : Option V) :
    Option V × List (String × Option V) :=
  let cache := if cache.length > cacheSize then [] else cache
  match alookup cache addr with
  | some v0 => (v0, cache)
  | none => (v, aset cache addr v)

/-- `static._dump(address, value)`: serialize and hash.  When a non-empty
address is supplied and differs from the hash, the source tries to raise
`NotStored` with a message interpolating the name `obj` — which is not bound
anywhere in `static.py` — so evaluating the message raises `NameError`
before `NotStored` is ever constructed.  The mismatch branch therefore
produces `nameError`. -/
def static_dump {V : Type} (dumps : V → Bytes) (digest : Bytes → String)
    (address : Option String) (v : V) : Except StoreErr (String × Bytes) :=
  let data := dumps v
  let static := digest data
  match address with
  | some a => if a ≠ "" ∧ a ≠ static then .error .nameError
              else .ok (static, data)
  | none => .ok (static, data)

/-- `static._store(address, value)`: dump, `add` to the backing store, and
swallow `NotStored` (from either step); any other exception — in particular
the `NameError` from the broken mismatch branch — propagates.  When `_dump`
raised, the `address` name still holds the original argument. -/
def static_store_op {V : Type} (dumps : V → Bytes) (digest : Bytes → String)
    (pfx : String) (cacheSize : Nat) (st : StaticState V)
    (address : Option String) (v : V) :
    Except StoreErr ((String × Option V) × StaticState V) :=
  match static_dump dumps digest address v with
  | .error .nameError => .error .nameError
  | .error e =>
      match address with
      | some a =>
          let c := static_cached cacheSize st.cache a (some v)
          .ok ((a, c.1), { st with cache := c.2 })
      | none => .error e
  | .ok (addr, data) =>
      let c := static_cached cacheSize st.cache addr (some v)
      match memAdd st.back (pfx ++ addr) data with
      | .ok back' => .ok ((addr, c.1), { back := back', cache := c.2 })
      | .error _ => .ok ((addr, c.1), { back := st.back, cache := c.2 })

/-- `static.put(value)` stores under the computed hash. -/
def static_put {V : Type} (dumps : V → Bytes) (digest : Bytes → String)
    (pfx : String) (cacheSize : Nat) (st : StaticState V) (v : V) :
    Except StoreErr ((String × Option V) × StaticState V) :=
  static_store_op dumps digest pfx cacheSize st none v

/-- `static.add(address, value)` stores under a caller-supplied address. -/
def static_add {V : Type} (dumps : V → Bytes) (digest : Bytes → String)
    (pfx : String) (cacheSize : Nat) (st : StaticState V) (a : String)
    (v : V) : Except StoreErr ((String × Option V) × StaticState V) :=
  static_store_op dumps digest pfx cacheSize st (some a) v

/-- `static.get(address)`: consult the cache, else read through the backing
store, verifying the hash (`BadObject` on mismatch, `__debug__` on) and
caching the result — including `Undefined` misses. -/
def static_get {V : Type} (loads : Bytes → V) (digest : Bytes → String)
    (pfx : String) (cacheSize : Nat) (st : StaticState V) (addr : String) :
    Except StoreErr (Option V × StaticState V) :=
  match alookup st.cache addr with
  | some v? => .ok (v?, st)
  | none =>
      match memGet st.back (pfx ++ addr) with
      | none =>
          let c := static_cached cacheSize st.cache addr none
          .ok (c.1, { st with cache := c.2 })
      | some data =>
          if digest data ≠ addr then .error (.notStored addr)
          else
            let c := static_cached cacheSize st.cache addr
              (some (loads data))
            .ok (c.1, { st with cache := c.2 })

/-- Claim C4: on a fresh store, two `put(v)` calls yield the same address,
the second one swallows the `NotStored` of the duplicate `add` and leaves the
backing store untouched, and the backing store holds exactly one entry for
that address. -/
theorem static_put_idempotent {V : Type} (dumps : V → Bytes)
    (digest : Bytes → String) (pfx : String) (cacheSize : Nat) (v : V) :
    static_put dumps digest pfx cacheSize ⟨⟨[], []⟩, []⟩ v =
      .ok ((digest (dumps v), some v),
        ⟨⟨[(pfx ++ digest (dumps v), dumps v)], []⟩,
          [(digest (dumps v), some v)]⟩) ∧
    memAdd (⟨[(pfx ++ digest (dumps v), dumps v)], []⟩ : MemStore Bytes)
        (pfx ++ digest (dumps v)) (dumps v) =
      .error (.notStored (pfx ++ digest (dumps v))) ∧
    static_put dumps digest pfx cacheSize
        ⟨⟨[(pfx ++ digest (dumps v), dumps v)], []⟩,
          [(digest (dumps v), some v)]⟩ v =
      .ok ((digest (dumps v), some v),
        ⟨⟨[(pfx ++ digest (dumps v), dumps v)], []⟩,
          [(digest (dumps v), some v)]⟩) := by
  have hadd2 : memAdd
      (⟨[(pfx ++ digest (dumps v), dumps v)], []⟩ : MemStore Bytes)
      (pfx ++ digest (dumps v)) (dumps v) =
      .error (.notStored (pfx ++ digest (dumps v))) := by
    unfold memAdd
    simp [alookup]
  refine ⟨?_, hadd2, ?_⟩
  · unfold static_put static_store_op static_dump static_cached memAdd memSet
    simp [alookup, aset]
  · unfold static_put static_store_op static_dump static_cached
    by_cases h : cacheSize = 0 <;> simp [hadd2, alookup, aset, h]

/-- Claim C9 as stated: an `add` under a wrong address swallows the internal
`NotStored`, returns normally, writes nothing, and poisons the cache so a
later `get` of that address returns the value. -/
def C9Prop : Prop :=
  ∀ (dumps : Nat → Bytes) (digest : Bytes → String) (pfx : String)
    (cacheSize : Nat) (st : StaticState Nat) (a : String) (v : Nat),
    a ≠ "" → a ≠ digest (dumps v) →
    ∃ r st', static_add dumps digest pfx cacheSize st a v = .ok (r, st') ∧
      st'.back = st.back ∧
      alookup st'.cache a = some (some v) ∧
      (∀ loads, static_get loads digest pfx cacheSize st' a =
        .ok (some v, st'))

/-- C9 counterexample: the mismatch branch of `_dump` fails to construct its
`NotStored` (its message references the unbound name `obj`), so `add` raises
`NameError` instead of returning; nothing is cached and nothing is stored. -/
theorem static_add_mismatch_counterexample : ¬ C9Prop := by
  intro h
  rcases h (fun _ => []) (fun _ => "aa") "" 0 ⟨⟨[], []⟩, []⟩ "bb" 5
      (by decide) (by decide) with ⟨r, st', hok, -⟩
  revert hok
  unfold static_add static_store_op static_dump
  simp

/-- C9 amended: `add` with a non-empty address that differs from the digest
of the value's serialization raises `NameError` (the consistency check's own
raise is broken), before anything is written or cached. -/
theorem static_add_mismatch_name_error {V : Type} (dumps : V → Bytes)
    (digest : Bytes → String) (pfx : String) (cacheSize : Nat)
    (st : StaticState V) (a : String) (v : V)
    (hne : a ≠ "") (hmm : a ≠ digest (dumps v)) :
    static_add dumps digest pfx cacheSize st a v = .error .nameError := by
  unfold static_add static_store_op static_dump
  simp [hne, hmm]

/-- C9 witness for the amended statement. -/
theorem static_add_mismatch_name_error_witness :
    static_add (fun _ : Nat => []) (fun _ => "aa") "" 0 ⟨⟨[], []⟩, []⟩
        "bb" 5 = .error .nameError :=
  static_add_mismatch_name_error (fun _ : Nat => []) (fun _ => "aa") "" 0
    ⟨⟨[], []⟩, []⟩ "bb" 5 (by decide) (by decide)

/-- Claim C10: when the changeset computed from a delta is empty (for
example, an empty delta, or a delta of `Deleted` entries for keys absent
from the manifest, applied over an empty current changeset), `checkpoint`
and `amend` return the current head checkpoint itself, and the subsequent
`end_transaction` returns `false` without a CAS, leaving the backing store
— and hence `HEAD` and the working view — completely unchanged. -/
theorem empty_changeset_frame (author : String) (at_ : Nat) (msg : String)
    (check : CheckpointT) (changes : RefMap) (hc : changes = [])
    (manifest : RefMap) (key : Key)
    (dumpCheck : CheckpointT → Bytes) (digest : Bytes → String)
    (dumpRef : String → Bytes) (st : MemStore Bytes) (token : Option Nat)
    (hstored : (alookup st.data
      ("objects/" ++ digest (dumpCheck check))).isSome) :
    make_changeset manifest [] [] = [] ∧
    (alookup manifest key = none →
       make_changeset manifest [] [(key, Deleted)] = []) ∧
    next_checkpoint author at_ msg check changes = check ∧
    amend_checkpoint author at_ msg check changes = check ∧
    end_transaction dumpCheck digest dumpRef st
        (some (digest (dumpCheck check))) token check = .ok (st, false) := by
  subst hc
  refine ⟨rfl, ?_, by simp [next_checkpoint], by simp [amend_checkpoint], ?_⟩
  · intro habs
    simp [make_changeset, habs, aeraseAll]
  · have hput : refput dumpCheck digest st check =
        (digest (dumpCheck check), st) := by
      unfold refput memAdd
      simp [hstored]
    unfold end_transaction
    rw [hput]
    simp

/-- C10 witness: a concrete zipper head whose serialized checkpoint is
already stored. -/
theorem empty_changeset_frame_witness :
    end_transaction (fun _ : CheckpointT => [3]) (fun _ => "h")
        (fun _ => [0]) ⟨[("objects/h", [3])], []⟩ (some "h") none
        (.mk "a" 0 "" [] [] []) =
      .ok (⟨[("objects/h", [3])], []⟩, false) :=
  (empty_changeset_frame "a" 0 "" (.mk "a" 0 "" [] [] []) [] rfl [] "k"
      (fun _ => [3]) (fun _ => "h") (fun _ => [0])
      ⟨[("objects/h", [3])], []⟩ none (by decide)).2.2.2.2

/-! ### The file-system backing store (`mdb/data/store/fsdir.py`)

`fsdir` keeps one file per key (the hashed path is a bijective function of
the key, so files are modelled keyed by the key itself) and a process-local
CAS-token dict.  `random.getrandbits(16)` draws are modelled by an explicit
stream of values, consumed in order. -/

structure FsDirState (V : Type) where
  files : List (String × V)
  cas : List (String × Nat)
deriving DecidableEq, Repr

/-- `fsdir._set`: write the file; if the key has a CAS token, add a random
16-bit draw to it. -/
def fsSet {V : Type} (st : FsDirState V) (key : String) (v : V)
    (rng : List Nat) : FsDirState V × List Nat :=
  match alookup st.cas key with
  | some t =>
      (⟨aset st.files key v, aset st.cas key (t + rng.headD 0)⟩, rng.tail)
  | none => (⟨aset st.files key v, st.cas⟩, rng)

/-- `fsdir.gets`: `Undefined` keys have token `None`; otherwise the token is
the stored one, seeded with a fresh random draw on first use. -/
def fsGets {V : Type} (st : FsDirState V) (key : String) (rng : List Nat) :
    (Option V × Option Nat) × FsDirState V × List Nat :=
  match alookup st.files key with
  | none => ((none, none), st, rng)
  | some v =>
      match alookup st.cas key with
      | some t => ((some v, some t), st, rng)
      | none =>
          ((some v, some (rng.headD 0)),
           ⟨st.files, aset st.cas key (rng.headD 0)⟩, rng.tail)

def fsValidCasToken {V : Type} (st : FsDirState V) (key : String)
    (token : Option Nat) : Bool :=
  match alookup st.cas key with
  | some t => token = some t
  | none => false

/-- `fsdir.cas`: check the token under the lock, then `_set`. -/
def fsCas {V : Type} (st : FsDirState V) (key : String) (v : V)
    (token : Option Nat) (rng : List Nat) :
    Except StoreErr (FsDirState V × List Nat) :=
  if fsValidCasToken st key token then .ok (fsSet st key v rng)
  else .error (.notStored key)

/-- Claim C8 failing input, evaluated: on `fsdir`, issue a token with `gets`
(random draw 5), perform a successful `set` whose random 16-bit draw is 0 —
the stored counter is unchanged, so the pre-write token still validates and
a `cas` with the stale token succeeds instead of raising `NotStored`.  This
contradicts the claim and the store test suite (`test_cas` asserts the token
changes and the stale `cas` raises). -/
theorem fsdir_zero_draw_keeps_stale_token :
    (fsGets (⟨[("k", 1)], []⟩ : FsDirState Nat) "k" [5, 0]) =
      ((some 1, some 5), ⟨[("k", 1)], [("k", 5)]⟩, [0]) ∧
    (fsSet (⟨[("k", 1)], [("k", 5)]⟩ : FsDirState Nat) "k" 2 [0]) =
      (⟨[("k", 2)], [("k", 5)]⟩, []) ∧
    fsValidCasToken (⟨[("k", 2)], [("k", 5)]⟩ : FsDirState Nat) "k"
      (some 5) = true ∧
    fsCas (⟨[("k", 2)], [("k", 5)]⟩ : FsDirState Nat) "k" 3 (some 5) [] =
      .ok (⟨[("k", 3)], [("k", 5)]⟩, []) := by
  refine ⟨?_, ?_, ?_, ?_⟩ <;> rfl

/-! ### Record field inheritance (`mdb/avro/schema.py`)

`inherit_fields(base, defn)` collects the names declared by the subclass,
keeps the base fields whose name is not redeclared, and extends that list
with the subclass's declared fields.  A field is its name plus the rest of
its declaration (type etc.), kept opaque. -/

structure FieldDecl where
  name : String
  decl : String
deriving DecidableEq, Repr

def inherit_fields (base fields : List FieldDecl) : List FieldDecl :=
  (base.filter fun f => ! (fields.any fun g => g.name == f.name)) ++ fields

/-- The spec's description of C6: base fields first in base order with
subclass redeclarations replacing same-named base fields in place, followed
by the subclass's newly declared fields. -/
def inherit_fields_spec_in_place (base fields : List FieldDecl) :
    List FieldDecl :=
  (base.map fun f => ((fields.find? fun g => g.name == f.name).getD f)) ++
    (fields.filter fun g => ! (base.any fun f => f.name == g.name))

/-- C6 counterexample: redeclaring base field `a` (not in last position)
moves it after the untouched base fields, instead of replacing it in place:
the code yields field order `b, a, c` where the claim demands `a, b, c`. -/
theorem inherit_fields_in_place_counterexample :
    inherit_fields [⟨"a", "int"⟩, ⟨"b", "int"⟩]
        [⟨"a", "string"⟩, ⟨"c", "int"⟩] =
      [⟨"b", "int"⟩, ⟨"a", "string"⟩, ⟨"c", "int"⟩] ∧
    inherit_fields_spec_in_place [⟨"a", "int"⟩, ⟨"b", "int"⟩]
        [⟨"a", "string"⟩, ⟨"c", "int"⟩] =
      [⟨"a", "string"⟩, ⟨"b", "int"⟩, ⟨"c", "int"⟩] ∧
    inherit_fields [⟨"a", "int"⟩, ⟨"b", "int"⟩]
        [⟨"a", "string"⟩, ⟨"c", "int"⟩] ≠
      inherit_fields_spec_in_place [⟨"a", "int"⟩, ⟨"b", "int"⟩]
        [⟨"a", "string"⟩, ⟨"c", "int"⟩] := by
  refine ⟨by decide, by decide, by decide⟩

theorem find?_filter_sub {α : Type} (l : List α) (p q : α → Bool)
    (h : ∀ a ∈ l, q a = true → p a = true) :
    (l.filter p).find? q = l.find? q := by
  induction l with
  | nil => rfl
  | cons a rest ih =>
      have ih' := ih (fun x hx hq => h x (List.mem_cons_of_mem a hx) hq)
      rw [List.filter_cons]
      by_cases hp : p a = true
      · rw [if_pos hp]
        cases hq : q a
        · rw [List.find?_cons_of_neg _ (by simp [hq]),
            List.find?_cons_of_neg _ (by simp [hq]), ih']
        · rw [List.find?_cons_of_pos _ hq, List.find?_cons_of_pos _ hq]
      · rw [if_neg hp]
        have hq : q a = false := by
          cases hqa : q a
          · rfl
          · exact absurd (h a (by simp) hqa) hp
        rw [ih', List.find?_cons_of_neg _ (by simp [hq])]

/-- C6 amended: the resulting field list is the base fields *not* redeclared
by the subclass, in base order, followed by all of the subclass's declared
fields in their declared order; consequently the declaration found for a
name is the subclass's when redeclared and the base's otherwise. -/
theorem inherit_fields_spec (base fields : List FieldDecl) :
    ((inherit_fields base fields).map FieldDecl.name =
      ((base.map FieldDecl.name).filter
        (fun n => ! (fields.any fun g => g.name == n))) ++
      fields.map FieldDecl.name) ∧
    (∀ n, (inherit_fields base fields).find? (fun f => f.name == n) =
      if fields.any (fun g => g.name == n)
      then fields.find? (fun f => f.name == n)
      else base.find? (fun f => f.name == n)) := by
  constructor
  · unfold inherit_fields
    rw [List.map_append]
    congr 1
    induction base with
    | nil => rfl
    | cons f rest ih =>
        rw [List.filter_cons, List.map_cons, List.filter_cons]
        cases h : (fields.any fun g => g.name == f.name)
        · rw [if_pos (by simp [h]), if_pos (by simp [h]), List.map_cons, ih]
        · rw [if_neg (by simp [h]), if_neg (by simp [h]), ih]
  · intro n
    unfold inherit_fields
    rw [List.find?_append]
    cases hf : (fields.any fun g => g.name == n)
    · rw [if_neg (by simp [hf])]
      have h2 : fields.find? (fun f => f.name == n) = none := by
        rw [List.find?_eq_none]
        intro g hg hgn
        have : (fields.any fun g => g.name == n) = true :=
          List.any_eq_true.mpr ⟨g, hg, by
            have := of_decide_eq_true (by exact hgn)
            exact beq_iff_eq.mpr (beq_iff_eq.mp hgn) ▸ hgn⟩
        rw [hf] at this
        cases this
      rw [h2]
      rw [show ∀ o : Option FieldDecl, o.or none = o from fun o => by
        cases o <;> rfl]
      apply find?_filter_sub
      intro f _ hq
      have hfn : f.name = n := beq_iff_eq.mp hq
      cases hkeep : (fields.any fun g => g.name == f.name)
      · simp
      · exfalso
        rw [hfn] at hkeep
        rw [hf] at hkeep
        cases hkeep
    · rw [if_pos (by simp [hf])]
      have h1 : (base.filter
          fun f => ! (fields.any fun g => g.name == f.name)).find?
          (fun f => f.name == n) = none := by
        rw [List.find?_eq_none]
        intro f hmem hfn
        have hkeep := (List.mem_filter.mp hmem).2
        have hfn' : f.name = n := beq_iff_eq.mp hfn
        rw [hfn'] at hkeep
        rw [hf] at hkeep
        cases hkeep
      rw [h1]
      rfl

/-! ### The binary codec (`mdb/avro/marshall.py`)

The byte-level encoders live in the external `avro` library; they are
modelled from the spec's binary-form table (§4.2): zig-zag varints for
int/long and counts, length-prefixed strings/bytes, IEEE floats as raw
little-endian byte blocks, block-structured arrays/maps terminated by a zero
count, unions as branch index plus body, records as concatenated field
bodies.  The dispatch extensions of `marshall.py` (omap = map, set = array,
the union `isinstance` scan, the `_map`/`_array` block loops including the
undefined `block_count` in `_array`) are modelled from the source.

Values are modelled in the canonical state `__getstate__` exposes to the
writer: map keys are kept sorted by the `tree` base class, omaps preserve
insertion order, floats and doubles are the 4/8 raw IEEE-754 bytes, and
strings carry their UTF-8 bytes. -/

/-- Modelled from the spec: zig-zag transform of `write_long`. -/
def zigzag (i : Int) : Nat :=
  (if i < 0 then -2 * i - 1 else 2 * i).toNat

/-- Modelled from the spec: inverse zig-zag of `read_long`. -/
def unzigzag (n : Nat) : Int :=
  if n % 2 = 1 then -(n / 2 : Nat) - 1 else (n / 2 : Nat)

theorem unzigzag_zigzag (i : Int) : unzigzag (zigzag i) = i := by
  unfold zigzag unzigzag
  by_cases h : i < 0
  · rw [if_pos h]
    have h1 : (-2 * i - 1).toNat = 2 * (-i).toNat - 1 := by omega
    rw [h1]
    have h2 : (2 * (-i).toNat - 1) % 2 = 1 := by omega
    rw [if_pos h2]
    omega
  · rw [if_neg h]
    have h1 : (2 * i).toNat = 2 * i.toNat := by omega
    rw [h1]
    have h2 : ¬ (2 * i.toNat % 2 = 1) := by omega
    rw [if_neg h2]
    omega

/-- Modelled from the spec: base-128 varint bytes, low group first, high bit
marking continuation. -/
def varintEnc (n : Nat) : List Nat :=
  if h : n < 128 then [n] else (n % 128 + 128) :: varintEnc (n / 128)
  termination_by n
  decreasing_by exact Nat.div_lt_self (by omega) (by omega)

/-- Modelled from the spec: varint reader. -/
def varintDec : List Nat → Option (Nat × List Nat)
  | [] => none
  | b :: rest =>
      if b < 128 then some (b, rest)
      else
        match varintDec rest with
        | some (m, r) => some ((b - 128) + 128 * m, r)
        | none => none

theorem varintDec_enc (n : Nat) (rest : List Nat) :
    varintDec (varintEnc n ++ rest) = some (n, rest) := by
  induction n using Nat.strong_induction_on with
  | _ n ih =>
      unfold varintEnc
      by_cases h : n < 128
      · rw [dif_pos h]
        show varintDec (n :: rest) = some (n, rest)
        unfold varintDec
        rw [if_pos h]
      · rw [dif_neg h]
        show varintDec ((n % 128 + 128) :: (varintEnc (n / 128) ++ rest)) =
          some (n, rest)
        unfold varintDec
        rw [if_neg (by omega)]
        rw [ih (n / 128) (Nat.div_lt_self (by omega) (by omega))]
        show some (n % 128 + 128 - 128 + 128 * (n / 128), rest) =
          some (n, rest)
        have he : n % 128 + 128 - 128 + 128 * (n / 128) = n := by omega
        rw [he]

/-- `write_long`: zig-zag then varint. -/
def writeLong (i : Int) : List Nat := varintEnc (zigzag i)

/-- `write_utf8` / `write_bytes`: length as a long, then the raw bytes. -/
def writeUtf8 (s : List Nat) : List Nat := writeLong s.length ++ s

/-- Avro schemata as declared by this repository: the Avro types plus the
`omap` and `set` extensions.  Fixed and record schemata are named; the
names stand for the Python classes the type registry associates to them. -/
inductive AvSchema where
  | anull
  | abool
  | aint
  | along
  | afloat
  | adouble
  | astring
  | abytes
  | afixed (name : String) (size : Nat)
  | aarray (items : AvSchema)
  | aset (items : AvSchema)
  | amap (values : AvSchema)
  | aomap (values : AvSchema)
  | aunion (branches : List AvSchema)
  | arecord (name : String) (fields : List (String × AvSchema))
deriving Repr

/-- Decoded/encodable values in the canonical state the writer receives
from `getstate`.  Union values are untagged, as in Python. -/
inductive AvValue where
  | vnull
  | vbool (b : Bool)
  | vint (i : Int)
  | vlong (i : Int)
  | vfloat (bs : List Nat)
  | vdouble (bs : List Nat)
  | vstring (bs : List Nat)
  | vbytes (bs : List Nat)
  | vfixed (name : String) (bs : List Nat)
  | varray (xs : List AvValue)
  | vmap (xs : List (List Nat × AvValue))
  | vrecord (name : String) (fs : List AvValue)
deriving Repr

/-- `DatumWriter.union_schema`: the first branch whose registry class the
datum is an instance of.  `isinstance` sees the head constructor and, for
fixed and record classes, the declared name. -/
def matchesBranch : AvValue → AvSchema → Bool
  | .vnull, .anull => true
  | .vbool _, .abool => true
  | .vint _, .aint => true
  | .vlong _, .along => true
  | .vfloat _, .afloat => true
  | .vdouble _, .adouble => true
  | .vstring _, .astring => true
  | .vbytes _, .abytes => true
  | .vfixed n _, .afixed n' _ => n == n'
  | .varray _, .aarray _ => true
  | .varray _, .aset _ => true
  | .vmap _, .amap _ => true
  | .vmap _, .aomap _ => true
  | .vrecord n _, .arecord n' _ => n == n'
  | _, _ => false

mutual

/-- `DatumWriter.write_data` specialized by schema: primitives via the
encoder, `omap` as map, `set` as array, unions via the first `isinstance`
match, records as concatenated fields.  `none` models the `AvroException`
or `AvroTypeException` raised on a datum/schema mismatch. -/
def encodeS : AvSchema → AvValue → Option (List Nat)
  | .anull, .vnull => some []
  | .abool, .vbool b => some [if b then 1 else 0]
  | .aint, .vint i => some (writeLong i)
  | .along, .vlong i => some (writeLong i)
  | .afloat, .vfloat bs => some bs
  | .adouble, .vdouble bs => some bs
  | .astring, .vstring bs => some (writeUtf8 bs)
  | .abytes, .vbytes bs => some (writeUtf8 bs)
  | .afixed _ _, .vfixed _ bs => some bs
  | .aarray it, .varray xs =>
      match encodeList it xs with
      | some body =>
          some ((if xs.length = 0 then [] else writeLong xs.length ++ body) ++
            writeLong 0)
      | none => none
  | .aset it, .varray xs =>
      match encodeList it xs with
      | some body =>
          some ((if xs.length = 0 then [] else writeLong xs.length ++ body) ++
            writeLong 0)
      | none => none
  | .amap vt, .vmap xs =>
      match encodePairs vt xs with
      | some body =>
          some ((if xs.length = 0 then [] else writeLong xs.length ++ body) ++
            writeLong 0)
      | none => none
  | .aomap vt, .vmap xs =>
      match encodePairs vt xs with
      | some body =>
          some ((if xs.length = 0 then [] else writeLong xs.length ++ body) ++
            writeLong 0)
      | none => none
  | .aunion branches, v => encodeUnion branches 0 v
  | .arecord _ flds, .vrecord _ vs => encodeFields flds vs
  | _, _ => none
termination_by s v => (sizeOf v, sizeOf s)

def encodeList : AvSchema → List AvValue → Option (List Nat)
  | _, [] => some []
  | it, x :: xs =>
      match encodeS it x, encodeList it xs with
      | some e, some rest => some (e ++ rest)
      | _, _ => none
termination_by s xs => (sizeOf xs, sizeOf s)

def encodePairs : AvSchema → List (List Nat × AvValue) → Option (List Nat)
  | _, [] => some []
  | vt, (k, v) :: xs =>
      match encodeS vt v, encodePairs vt xs with
      | some e, some rest => some (writeUtf8 k ++ e ++ rest)
      | _, _ => none
termination_by s xs => (sizeOf xs, sizeOf s)

def encodeFields : List (String × AvSchema) → List AvValue →
    Option (List Nat)
  | [], [] => some []
  | (_, fs) :: flds, v :: vs =>
      match encodeS fs v, encodeFields flds vs with
      | some e, some rest => some (e ++ rest)
      | _, _ => none
  | _, _ => none
termination_by flds vs => (sizeOf vs, sizeOf flds)

/-- `write_union` with the running branch index: write the index of the
first matching branch as a long, then the branch body. -/
def encodeUnion : List AvSchema → Nat → AvValue → Option (List Nat)
  | [], _, _ => none
  | b :: rest, idx, v =>
      if matchesBranch v b then
        match encodeS b v with
        | some e => some (writeLong idx ++ e)
        | none => none
      else encodeUnion rest (idx + 1) v
termination_by bs _ v => (sizeOf v, sizeOf bs)

end

/-- Decoder errors: `eof` models reading past the end, `negLen` a negative
length, `badUnion` a union index outside the schema list, `nameError` the
unbound `block_count` in `DatumReader._array`, `fuelOut` is unreachable on
any input (each block iteration consumes at least one byte). -/
inductive DecErr where
  | eof
  | negLen
  | badUnion
  | nameError
  | fuelOut
deriving DecidableEq, Repr

/-- `read_long`: varint then inverse zig-zag. -/
def readLong (bs : List Nat) : Except DecErr (Int × List Nat) :=
  match varintDec bs with
  | none => .error .eof
  | some (n, r) => .ok (unzigzag n, r)

/-- `read(n)`: take exactly `n` bytes. -/
def readN (n : Nat) (bs : List Nat) : Except DecErr (List Nat × List Nat) :=
  if n ≤ bs.length then .ok (bs.take n, bs.drop n) else .error .eof

/-- `read_utf8` / `read_bytes`: long length prefix, then the bytes. -/
def readUtf8 (bs : List Nat) : Except DecErr (List Nat × List Nat) :=
  match readLong bs with
  | .error e => .error e
  | .ok (len, r) => if len < 0 then .error .negLen else readN len.toNat r

mutual

/-- `DatumReader.read_data` specialized by schema (no schema reconciliation:
reader and writer schema coincide).  Fixed and record values are cast to the
registry class named by the schema.  The block loops of `_array`/`_map` are
given `length + 1` fuel, enough for any input since each iteration reads at
least the one-byte block count.  A union index outside the schema list is an
error (Python would raise `IndexError`; a negative in-range index would pick
from the end of the list, which no writer emits). -/
def decodeS : AvSchema → List Nat → Except DecErr (AvValue × List Nat)
  | .anull, bs => .ok (.vnull, bs)
  | .abool, bs =>
      match bs with
      | [] => .error .eof
      | b :: r => .ok (.vbool (b == 1), r)
  | .aint, bs =>
      match readLong bs with
      | .error e => .error e
      | .ok (i, r) => .ok (.vint i, r)
  | .along, bs =>
      match readLong bs with
      | .error e => .error e
      | .ok (i, r) => .ok (.vlong i, r)
  | .afloat, bs =>
      match readN 4 bs with
      | .error e => .error e
      | .ok (w, r) => .ok (.vfloat w, r)
  | .adouble, bs =>
      match readN 8 bs with
      | .error e => .error e
      | .ok (w, r) => .ok (.vdouble w, r)
  | .astring, bs =>
      match readUtf8 bs with
      | .error e => .error e
      | .ok (w, r) => .ok (.vstring w, r)
  | .abytes, bs =>
      match readUtf8 bs with
      | .error e => .error e
      | .ok (w, r) => .ok (.vbytes w, r)
  | .afixed name sz, bs =>
      match readN sz bs with
      | .error e => .error e
      | .ok (w, r) => .ok (.vfixed name w, r)
  | .aarray it, bs =>
      match decodeArrayBlocks it (bs.length + 1) bs [] with
      | .error e => .error e
      | .ok (xs, r) => .ok (.varray xs, r)
  | .aset it, bs =>
      match decodeArrayBlocks it (bs.length + 1) bs [] with
      | .error e => .error e
      | .ok (xs, r) => .ok (.varray xs, r)
  | .amap vt, bs =>
      match decodeMapBlocks vt (bs.length + 1) bs [] with
      | .error e => .error e
      | .ok (xs, r) => .ok (.vmap xs, r)
  | .aomap vt, bs =>
      match decodeMapBlocks vt (bs.length + 1) bs [] with
      | .error e => .error e
      | .ok (xs, r) => .ok (.vmap xs, r)
  | .aunion branches, bs =>
      match readLong bs with
      | .error e => .error e
      | .ok (i, r) =>
          if i < 0 then .error .badUnion
          else decodeUnionBranch branches i.toNat r
  | .arecord name flds, bs =>
      match decodeFieldsD flds bs with
      | .error e => .error e
      | .ok (vs, r) => .ok (.vrecord name vs, r)
termination_by s bs => (2 * sizeOf s, 0, 0)

/-- `ws.schemas[index]`: structural indexing into the union's branch list;
out of range is an error (Python raises `IndexError`). -/
def decodeUnionBranch (branches : List AvSchema) (i : Nat) (r : List Nat) :
    Except DecErr (AvValue × List Nat) :=
  match branches, i with
  | [], _ => .error .badUnion
  | b :: _, 0 => decodeS b r
  | _ :: rest, j + 1 => decodeUnionBranch rest j r
termination_by (2 * sizeOf branches, 0, 0)

/-- `DatumReader._array`: read blocks until a zero count; a negative count
hits the unbound name `block_count` and is an error. -/
def decodeArrayBlocks (it : AvSchema) (fuel : Nat) (bs : List Nat)
    (acc : List AvValue) : Except DecErr (List AvValue × List Nat) :=
  match fuel with
  | 0 => .error .fuelOut
  | fuel + 1 =>
      match readLong bs with
      | .error e => .error e
      | .ok (count, r) =>
          if count = 0 then .ok (acc, r)
          else if count < 0 then .error .nameError
          else
            match decodeItems it count.toNat r with
            | .error e => .error e
            | .ok (items, r2) => decodeArrayBlocks it fuel r2 (acc ++ items)
termination_by (2 * sizeOf it + 1, fuel, 0)

def decodeItems (it : AvSchema) (n : Nat) (bs : List Nat) :
    Except DecErr (List AvValue × List Nat) :=
  match n with
  | 0 => .ok ([], bs)
  | n + 1 =>
      match decodeS it bs with
      | .error e => .error e
      | .ok (v, r) =>
          match decodeItems it n r with
          | .error e => .error e
          | .ok (vs, r2) => .ok (v :: vs, r2)
termination_by (2 * sizeOf it, 1, n)

/-- `DatumReader._map`: like `_array`, but a negative count is negated and
followed by a block size, as the Avro spec prescribes. -/
def decodeMapBlocks (vt : AvSchema) (fuel : Nat) (bs : List Nat)
    (acc : List (List Nat × AvValue)) :
    Except DecErr (List (List Nat × AvValue) × List Nat) :=
  match fuel with
  | 0 => .error .fuelOut
  | fuel + 1 =>
      match readLong bs with
      | .error e => .error e
      | .ok (count, r) =>
          if count = 0 then .ok (acc, r)
          else
            match (if count < 0 then
                     match readLong r with
                     | .error e => .error e
                     | .ok (_, r2) => .ok ((-count).toNat, r2)
                   else .ok (count.toNat, r) :
                   Except DecErr (Nat × List Nat)) with
            | .error e => .error e
            | .ok (cnt, r2) =>
                match decodePairs vt cnt r2 with
                | .error e => .error e
                | .ok (ps, r3) => decodeMapBlocks vt fuel r3 (acc ++ ps)
termination_by (2 * sizeOf vt + 1, fuel, 0)

def decodePairs (vt : AvSchema) (n : Nat) (bs : List Nat) :
    Except DecErr (List (List Nat × AvValue) × List Nat) :=
  match n with
  | 0 => .ok ([], bs)
  | n + 1 =>
      match readUtf8 bs with
      | .error e => .error e
      | .ok (k, r) =>
          match decodeS vt r with
          | .error e => .error e
          | .ok (v, r2) =>
              match decodePairs vt n r2 with
              | .error e => .error e
              | .ok (ps, r3) => .ok ((k, v) :: ps, r3)
termination_by (2 * sizeOf vt, 1, n)

/-- `read_record`: read each field body in declared order. -/
def decodeFieldsD (flds : List (String × AvSchema)) (bs : List Nat) :
    Except DecErr (List AvValue × List Nat) :=
  match flds with
  | [] => .ok ([], bs)
  | (_, fs) :: rest =>
      match decodeS fs bs with
      | .error e => .error e
      | .ok (v, r) =>
          match decodeFieldsD rest r with
          | .error e => .error e
          | .ok (vs, r2) => .ok (v :: vs, r2)
termination_by (2 * sizeOf flds + 1, 0, 0)

end

/-- Strict lexicographic order on byte strings, the order `tree` keeps its
keys in. -/
def lexLtBytes : List Nat → List Nat → Bool
  | [], [] => false
  | [], _ :: _ => true
  | _ :: _, [] => false
  | a :: as, b :: bs =>
      if a < b then true else if a == b then lexLtBytes as bs else false

def keysSorted : List (List Nat) → Bool
  | [] => true
  | [_] => true
  | k1 :: k2 :: rest => lexLtBytes k1 k2 && keysSorted (k2 :: rest)

def keysNodup : List (List Nat) → Bool
  | [] => true
  | k :: rest => (! rest.any (· == k)) && keysNodup rest

mutual

/-- A value conforming to a schema, in canonical state: ints and longs in
range, floats and doubles as their 4/8 IEEE-754 bytes, fixed values of the
declared size and class, map keys sorted (`tree`), omap keys unique, union
values deep-conforming to the first branch `isinstance` selects, records of
the declared class with one value per field. -/
def conformsB : AvSchema → AvValue → Bool
  | .anull, .vnull => true
  | .abool, .vbool _ => true
  | .aint, .vint i => decide (-(2 ^ 31) ≤ i) && decide (i < 2 ^ 31)
  | .along, .vlong i => decide (-(2 ^ 63) ≤ i) && decide (i < 2 ^ 63)
  | .afloat, .vfloat bs => bs.length == 4
  | .adouble, .vdouble bs => bs.length == 8
  | .astring, .vstring _ => true
  | .abytes, .vbytes _ => true
  | .afixed n sz, .vfixed n' bs => n == n' && bs.length == sz
  | .aarray it, .varray xs => conformsList it xs
  | .aset it, .varray xs => conformsList it xs
  | .amap vt, .vmap xs =>
      keysSorted (xs.map Prod.fst) && conformsPairs vt xs
  | .aomap vt, .vmap xs =>
      keysNodup (xs.map Prod.fst) && conformsPairs vt xs
  | .aunion branches, v => conformsUnion branches v
  | .arecord n flds, .vrecord n' vs => n == n' && conformsFields flds vs
  | _, _ => false
termination_by s v => (sizeOf v, sizeOf s)

def conformsList : AvSchema → List AvValue → Bool
  | _, [] => true
  | it, x :: xs => conformsB it x && conformsList it xs
termination_by s xs => (sizeOf xs, sizeOf s)

def conformsPairs : AvSchema → List (List Nat × AvValue) → Bool
  | _, [] => true
  | vt, (_, v) :: xs => conformsB vt v && conformsPairs vt xs
termination_by s xs => (sizeOf xs, sizeOf s)

def conformsFields : List (String × AvSchema) → List AvValue → Bool
  | [], [] => true
  | (_, fs) :: flds, v :: vs => conformsB fs v && conformsFields flds vs
  | _, _ => false
termination_by flds vs => (sizeOf vs, sizeOf flds)

def conformsUnion : List AvSchema → AvValue → Bool
  | [], _ => false
  | b :: rest, v =>
      if matchesBranch v b then conformsB b v else conformsUnion rest v
termination_by bs v => (sizeOf v, sizeOf bs)

end

theorem readLong_writeLong (i : Int) (rest : List Nat) :
    readLong (writeLong i ++ rest) = .ok (i, rest) := by
  unfold readLong writeLong
  rw [varintDec_enc]
  show Except.ok (unzigzag (zigzag i), rest) = Except.ok (i, rest)
  rw [unzigzag_zigzag]

theorem writeLong_zero : writeLong 0 = [0] := by
  unfold writeLong
  have h : zigzag 0 = 0 := by decide
  rw [h]
  unfold varintEnc
  rw [dif_pos (by omega)]

theorem readUtf8_writeUtf8 (w rest : List Nat) :
    readUtf8 (writeUtf8 w ++ rest) = .ok (w, rest) := by
  unfold readUtf8 writeUtf8
  rw [List.append_assoc, readLong_writeLong]
  show (if ((w.length : Int)) < 0 then Except.error DecErr.negLen
        else readN (w.length : Int).toNat (w ++ rest)) = Except.ok (w, rest)
  rw [if_neg (by omega)]
  unfold readN
  rw [if_pos (by simp)]
  simp

theorem get?_append_cons {α : Type} (pre : List α) (b : α) (suf : List α) :
    (pre ++ b :: suf).get? pre.length = some b := by
  induction pre with
  | nil => rfl
  | cons a rest ih => simpa using ih

theorem readLong_zero_cons (rest : List Nat) :
    readLong (0 :: rest) = .ok (0, rest) := by
  have h := readLong_writeLong 0 rest
  rwa [writeLong_zero] at h

theorem decodeArrayBlocks_term (it : AvSchema) (fuel : Nat) (rest : List Nat)
    (acc : List AvValue) (hf : 1 ≤ fuel) :
    decodeArrayBlocks it fuel (0 :: rest) acc = .ok (acc, rest) := by
  obtain ⟨m, rfl⟩ : ∃ m, fuel = m + 1 := ⟨fuel - 1, by omega⟩
  unfold decodeArrayBlocks
  rw [readLong_zero_cons]
  show (if (0 : Int) = 0 then Except.ok (acc, rest)
        else if (0 : Int) < 0 then Except.error DecErr.nameError
        else match decodeItems it ((0 : Int)).toNat rest with
             | .error e => Except.error e
             | .ok (items, r2) =>
                 decodeArrayBlocks it m r2 (acc ++ items)) =
      Except.ok (acc, rest)
  rw [if_pos rfl]

theorem decodeArrayBlocks_one (it : AvSchema) (fuel : Nat)
    (xs : List AvValue) (body rest : List Nat) (acc : List AvValue)
    (hf : 2 ≤ fuel) (hne : xs ≠ [])
    (hitems : decodeItems it xs.length (body ++ 0 :: rest) =
      .ok (xs, 0 :: rest)) :
    decodeArrayBlocks it fuel
      ((writeLong xs.length ++ body) ++ 0 :: rest) acc = .ok (acc ++ xs, rest) := by
  obtain ⟨m, rfl⟩ : ∃ m, fuel = m + 2 := ⟨fuel - 2, by omega⟩
  unfold decodeArrayBlocks
  rw [List.append_assoc, readLong_writeLong]
  show (if (xs.length : Int) = 0 then Except.ok (acc, body ++ 0 :: rest)
        else if (xs.length : Int) < 0 then Except.error DecErr.nameError
        else match decodeItems it ((xs.length : Int)).toNat
            (body ++ 0 :: rest) with
             | .error e => Except.error e
             | .ok (items, r2) =>
                 decodeArrayBlocks it (m + 1) r2 (acc ++ items)) =
      Except.ok (acc ++ xs, rest)
  have hlen : ¬ ((xs.length : Int) = 0) := by
    cases xs with
    | nil => exact absurd rfl hne
    | cons a l =>
        intro h
        rw [List.length_cons] at h
        omega
  rw [if_neg hlen, if_neg (by omega)]
  rw [show ((xs.length : Int)).toNat = xs.length from by omega]
  rw [hitems]
  exact decodeArrayBlocks_term it (m + 1) rest (acc ++ xs) (by omega)

theorem decodeMapBlocks_term (vt : AvSchema) (fuel : Nat) (rest : List Nat)
    (acc : List (List Nat × AvValue)) (hf : 1 ≤ fuel) :
    decodeMapBlocks vt fuel (0 :: rest) acc = .ok (acc, rest) := by
  obtain ⟨m, rfl⟩ : ∃ m, fuel = m + 1 := ⟨fuel - 1, by omega⟩
  unfold decodeMapBlocks
  rw [readLong_zero_cons]
  show (if (0 : Int) = 0 then Except.ok (acc, rest)
        else match (if (0 : Int) < 0 then
                match readLong rest with
                | .error e => Except.error e
                | .ok (_, r2) => Except.ok ((-(0 : Int)).toNat, r2)
              else Except.ok (((0 : Int)).toNat, rest) :
              Except DecErr (Nat × List Nat)) with
             | .error e => Except.error e
             | .ok (cnt, r2) =>
                 match decodePairs vt cnt r2 with
                 | .error e => Except.error e
                 | .ok (ps, r3) => decodeMapBlocks vt m r3 (acc ++ ps)) =
      Except.ok (acc, rest)
  rw [if_pos rfl]

theorem decodeMapBlocks_one (vt : AvSchema) (fuel : Nat)
    (xs : List (List Nat × AvValue)) (body rest : List Nat)
    (acc : List (List Nat × AvValue)) (hf : 2 ≤ fuel) (hne : xs ≠ [])
    (hpairs : decodePairs vt xs.length (body ++ 0 :: rest) =
      .ok (xs, 0 :: rest)) :
    decodeMapBlocks vt fuel
      ((writeLong xs.length ++ body) ++ 0 :: rest) acc = .ok (acc ++ xs, rest) := by
  obtain ⟨m, rfl⟩ : ∃ m, fuel = m + 2 := ⟨fuel - 2, by omega⟩
  unfold decodeMapBlocks
  rw [List.append_assoc, readLong_writeLong]
  show (if (xs.length : Int) = 0 then Except.ok (acc, body ++ 0 :: rest)
        else match (if (xs.length : Int) < 0 then
                match readLong (body ++ 0 :: rest) with
                | .error e => Except.error e
                | .ok (_, r2) => Except.ok ((-(xs.length : Int)).toNat, r2)
              else Except.ok (((xs.length : Int)).toNat,
                body ++ 0 :: rest) :
              Except DecErr (Nat × List Nat)) with
             | .error e => Except.error e
             | .ok (cnt, r2) =>
                 match decodePairs vt cnt r2 with
                 | .error e => Except.error e
                 | .ok (ps, r3) =>
                     decodeMapBlocks vt (m + 1) r3 (acc ++ ps)) =
      Except.ok (acc ++ xs, rest)
  have hlen : ¬ ((xs.length : Int) = 0) := by
    cases xs with
    | nil => exact absurd rfl hne
    | cons a l =>
        intro h
        rw [List.length_cons] at h
        omega
  rw [if_neg hlen, if_neg (by omega)]
  rw [show ((xs.length : Int)).toNat = xs.length from by omega]
  show (match decodePairs vt xs.length (body ++ 0 :: rest) with
        | .error e => Except.error e
        | .ok (ps, r3) => decodeMapBlocks vt (m + 1) r3 (acc ++ ps)) =
      Except.ok (acc ++ xs, rest)
  rw [hpairs]
  exact decodeMapBlocks_term vt (m + 1) rest (acc ++ xs) (by omega)

theorem decodeUnionBranch_append (pre : List AvSchema) (b : AvSchema)
    (suf : List AvSchema) (r : List Nat) :
    decodeUnionBranch (pre ++ b :: suf) pre.length r = decodeS b r := by
  induction pre with
  | nil =>
      show decodeUnionBranch (b :: suf) 0 r = decodeS b r
      unfold decodeUnionBranch
      rfl
  | cons p pre' ih =>
      show decodeUnionBranch (p :: (pre' ++ b :: suf)) (pre'.length + 1) r =
        decodeS b r
      unfold decodeUnionBranch
      exact ih

/-- Round-trip workhorse: a value conforming to a schema encodes
successfully, and decoding the encoding before any remaining input returns
the value and the remaining input.  Strong induction on the combined size
of schema and value. -/
theorem codec_aux : ∀ (n : Nat) (s : AvSchema) (v : AvValue),
    sizeOf s + sizeOf v ≤ n → conformsB s v = true →
    ∃ e, encodeS s v = some e ∧
      ∀ rest, decodeS s (e ++ rest) = .ok (v, rest) := by
  intro n
  induction n using Nat.strong_induction_on with
  | _ n ih =>
  intro s v hsz hconf
  cases s with
  | anull =>
      cases v <;> simp [conformsB] at hconf
      exact ⟨[], by simp [encodeS], fun rest => by simp [decodeS]⟩
  | abool =>
      cases v <;> simp [conformsB] at hconf
      case vbool b =>
        refine ⟨[if b then 1 else 0], by simp [encodeS], fun rest => ?_⟩
        cases b <;> simp [decodeS]
  | aint =>
      cases v <;> simp [conformsB] at hconf
      case vint i =>
        refine ⟨writeLong i, by simp [encodeS], fun rest => ?_⟩
        simp [decodeS, readLong_writeLong]
  | along =>
      cases v <;> simp [conformsB] at hconf
      case vlong i =>
        refine ⟨writeLong i, by simp [encodeS], fun rest => ?_⟩
        simp [decodeS, readLong_writeLong]
  | afloat =>
      cases v <;> simp [conformsB] at hconf
      case vfloat w =>
        refine ⟨w, by simp [encodeS], fun rest => ?_⟩
        simp [decodeS, readN, hconf]
  | adouble =>
      cases v <;> simp [conformsB] at hconf
      case vdouble w =>
        refine ⟨w, by simp [encodeS], fun rest => ?_⟩
        simp [decodeS, readN, hconf]
  | astring =>
      cases v <;> simp [conformsB] at hconf
      case vstring w =>
        refine ⟨writeUtf8 w, by simp [encodeS], fun rest => ?_⟩
        simp [decodeS, readUtf8_writeUtf8]
  | abytes =>
      cases v <;> simp [conformsB] at hconf
      case vbytes w =>
        refine ⟨writeUtf8 w, by simp [encodeS], fun rest => ?_⟩
        simp [decodeS, readUtf8_writeUtf8]
  | afixed name sz =>
      cases v <;> simp [conformsB] at hconf
      case vfixed name' w =>
        obtain ⟨hname, hlen⟩ := hconf
        refine ⟨w, by simp [encodeS], fun rest => ?_⟩
        subst hname
        simp [decodeS, readN, hlen]
  | aarray it =>
      cases v <;> simp [conformsB] at hconf
      case varray xs =>
        have hszl : sizeOf it + sizeOf xs + 2 ≤ n := by
          have h1 : sizeOf (AvSchema.aarray it) = 1 + sizeOf it := by simp
          have h2 : sizeOf (AvValue.varray xs) = 1 + sizeOf xs := by simp
          omega
        have hlist : ∀ (ys : List AvValue),
            sizeOf ys ≤ sizeOf xs → conformsList it ys = true →
            ∃ body, encodeList it ys = some body ∧
              ∀ tail, decodeItems it ys.length (body ++ tail) =
                .ok (ys, tail) := by
          intro ys
          induction ys with
          | nil =>
              intro _ _
              exact ⟨[], by simp [encodeList], fun tail => by
                simp [decodeItems]⟩
          | cons x ys' ihy =>
              intro hb hc
              have hx : conformsB it x = true := by
                have := hc
                simp [conformsList] at this
                exact this.1
              have hys : conformsList it ys' = true := by
                have := hc
                simp [conformsList] at this
                exact this.2
              have hszc : sizeOf (x :: ys') = 1 + sizeOf x + sizeOf ys' := by
                simp
              rw [hszc] at hb
              obtain ⟨e1, he1, hd1⟩ :=
                ih (sizeOf it + sizeOf x) (by omega) it x (le_refl _) hx
              obtain ⟨body', hb', hd'⟩ := ihy (by omega) hys
              refine ⟨e1 ++ body', ?_, fun tail => ?_⟩
              · simp [encodeList, he1, hb']
              · show decodeItems it (ys'.length + 1)
                  ((e1 ++ body') ++ tail) = .ok (x :: ys', tail)
                unfold decodeItems
                rw [List.append_assoc, hd1]
                show (match decodeItems it ys'.length (body' ++ tail) with
                      | .error e => Except.error e
                      | .ok (vs, r2) => Except.ok (x :: vs, r2)) =
                    Except.ok (x :: ys', tail)
                rw [hd' tail]
        obtain ⟨body, hbody, hitems⟩ := hlist xs (le_refl _) hconf
        refine ⟨(if xs.length = 0 then [] else writeLong xs.length ++ body) ++
          writeLong 0, ?_, fun rest => ?_⟩
        · simp [encodeS, hbody]
        · by_cases hxe : xs = []
          · subst hxe
            have hbe : body = [] := by
              have h0 : encodeList it ([] : List AvValue) = some [] := by
                unfold encodeList
                rfl
              rw [h0] at hbody
              exact (Option.some_inj.mp hbody).symm
            subst hbe
            rw [writeLong_zero]
            show decodeS (.aarray it) ([0] ++ rest) = .ok (.varray [], rest)
            simp only [decodeS]
            rw [show ([0] ++ rest : List Nat) = 0 :: rest from rfl]
            rw [decodeArrayBlocks_term it _ rest [] (by omega)]
          · rw [if_neg (by simpa using hxe), writeLong_zero]
            have hsplit :
                ((writeLong xs.length ++ body) ++ [0]) ++ rest =
                  (writeLong xs.length ++ body) ++ 0 :: rest := by
              simp
            rw [hsplit]
            simp only [decodeS]
            rw [decodeArrayBlocks_one it _ xs body rest [] ?_ hxe
              (hitems (0 :: rest))]
            · rfl
            · simp only [List.length_append, List.length_cons]
              omega
  | aset it =>
      cases v <;> simp [conformsB] at hconf
      case varray xs =>
        have hszl : sizeOf it + sizeOf xs + 2 ≤ n := by
          have h1 : sizeOf (AvSchema.aset it) = 1 + sizeOf it := by simp
          have h2 : sizeOf (AvValue.varray xs) = 1 + sizeOf xs := by simp
          omega
        have hlist : ∀ (ys : List AvValue),
            sizeOf ys ≤ sizeOf xs → conformsList it ys = true →
            ∃ body, encodeList it ys = some body ∧
              ∀ tail, decodeItems it ys.length (body ++ tail) =
                .ok (ys, tail) := by
          intro ys
          induction ys with
          | nil =>
              intro _ _
              exact ⟨[], by simp [encodeList], fun tail => by
                simp [decodeItems]⟩
          | cons x ys' ihy =>
              intro hb hc
              have hx : conformsB it x = true := by
                have := hc
                simp [conformsList] at this
                exact this.1
              have hys : conformsList it ys' = true := by
                have := hc
                simp [conformsList] at this
                exact this.2
              have hszc : sizeOf (x :: ys') = 1 + sizeOf x + sizeOf ys' := by
                simp
              rw [hszc] at hb
              obtain ⟨e1, he1, hd1⟩ :=
                ih (sizeOf it + sizeOf x) (by omega) it x (le_refl _) hx
              obtain ⟨body', hb', hd'⟩ := ihy (by omega) hys
              refine ⟨e1 ++ body', ?_, fun tail => ?_⟩
              · simp [encodeList, he1, hb']
              · show decodeItems it (ys'.length + 1)
                  ((e1 ++ body') ++ tail) = .ok (x :: ys', tail)
                unfold decodeItems
                rw [List.append_assoc, hd1]
                show (match decodeItems it ys'.length (body' ++ tail) with
                      | .error e => Except.error e
                      | .ok (vs, r2) => Except.ok (x :: vs, r2)) =
                    Except.ok (x :: ys', tail)
                rw [hd' tail]
        obtain ⟨body, hbody, hitems⟩ := hlist xs (le_refl _) hconf
        refine ⟨(if xs.length = 0 then [] else writeLong xs.length ++ body) ++
          writeLong 0, ?_, fun rest => ?_⟩
        · simp [encodeS, hbody]
        · by_cases hxe : xs = []
          · subst hxe
            have hbe : body = [] := by
              have h0 : encodeList it ([] : List AvValue) = some [] := by
                unfold encodeList
                rfl
              rw [h0] at hbody
              exact (Option.some_inj.mp hbody).symm
            subst hbe
            rw [writeLong_zero]
            show decodeS (.aset it) ([0] ++ rest) = .ok (.varray [], rest)
            simp only [decodeS]
            rw [show ([0] ++ rest : List Nat) = 0 :: rest from rfl]
            rw [decodeArrayBlocks_term it _ rest [] (by omega)]
          · rw [if_neg (by simpa using hxe), writeLong_zero]
            have hsplit :
                ((writeLong xs.length ++ body) ++ [0]) ++ rest =
                  (writeLong xs.length ++ body) ++ 0 :: rest := by
              simp
            rw [hsplit]
            simp only [decodeS]
            rw [decodeArrayBlocks_one it _ xs body rest [] ?_ hxe
              (hitems (0 :: rest))]
            · rfl
            · simp only [List.length_append, List.length_cons]
              omega
  | amap vt =>
      cases v <;> simp [conformsB] at hconf
      case vmap xs =>
        have hpc : conformsPairs vt xs = true := hconf.2
        have hszl : sizeOf vt + sizeOf xs + 2 ≤ n := by
          have h1 : sizeOf (AvSchema.amap vt) = 1 + sizeOf vt := by simp
          have h2 : sizeOf (AvValue.vmap xs) = 1 + sizeOf xs := by simp
          omega
        have hlist : ∀ (ys : List (List Nat × AvValue)),
            sizeOf ys ≤ sizeOf xs → conformsPairs vt ys = true →
            ∃ body, encodePairs vt ys = some body ∧
              ∀ tail, decodePairs vt ys.length (body ++ tail) =
                .ok (ys, tail) := by
          intro ys
          induction ys with
          | nil =>
              intro _ _
              exact ⟨[], by simp [encodePairs], fun tail => by
                simp [decodePairs]⟩
          | cons kv ys' ihy =>
              intro hb hc
              obtain ⟨k, x⟩ := kv
              have hx : conformsB vt x = true := by
                have := hc
                simp [conformsPairs] at this
                exact this.1
              have hys : conformsPairs vt ys' = true := by
                have := hc
                simp [conformsPairs] at this
                exact this.2
              have hszc : sizeOf ((k, x) :: ys') =
                  1 + (1 + sizeOf k + sizeOf x) + sizeOf ys' := by
                simp
              rw [hszc] at hb
              obtain ⟨e1, he1, hd1⟩ :=
                ih (sizeOf vt + sizeOf x) (by omega) vt x (le_refl _) hx
              obtain ⟨body', hb', hd'⟩ := ihy (by omega) hys
              refine ⟨writeUtf8 k ++ e1 ++ body', ?_, fun tail => ?_⟩
              · simp [encodePairs, he1, hb']
              · show decodePairs vt (ys'.length + 1)
                  ((writeUtf8 k ++ e1 ++ body') ++ tail) =
                    .ok ((k, x) :: ys', tail)
                unfold decodePairs
                rw [List.append_assoc, List.append_assoc,
                  readUtf8_writeUtf8]
                show (match decodeS vt (e1 ++ (body' ++ tail)) with
                      | .error e => Except.error e
                      | .ok (v, r2) =>
                          match decodePairs vt ys'.length r2 with
                          | .error e => Except.error e
                          | .ok (ps, r3) => Except.ok ((k, v) :: ps, r3)) =
                    Except.ok ((k, x) :: ys', tail)
                rw [hd1]
                show (match decodePairs vt ys'.length (body' ++ tail) with
                      | .error e => Except.error e
                      | .ok (ps, r3) => Except.ok ((k, x) :: ps, r3)) =
                    Except.ok ((k, x) :: ys', tail)
                rw [hd' tail]
        obtain ⟨body, hbody, hpairs⟩ := hlist xs (le_refl _) hpc
        refine ⟨(if xs.length = 0 then [] else writeLong xs.length ++ body) ++
          writeLong 0, ?_, fun rest => ?_⟩
        · simp [encodeS, hbody]
        · by_cases hxe : xs = []
          · subst hxe
            have hbe : body = [] := by
              have h0 : encodePairs vt ([] : List (List Nat × AvValue)) =
                  some [] := by
                unfold encodePairs
                rfl
              rw [h0] at hbody
              exact (Option.some_inj.mp hbody).symm
            subst hbe
            rw [writeLong_zero]
            show decodeS (.amap vt) ([0] ++ rest) = .ok (.vmap [], rest)
            simp only [decodeS]
            rw [show ([0] ++ rest : List Nat) = 0 :: rest from rfl]
            rw [decodeMapBlocks_term vt _ rest [] (by omega)]
          · rw [if_neg (by simpa using hxe), writeLong_zero]
            have hsplit :
                ((writeLong xs.length ++ body) ++ [0]) ++ rest =
                  (writeLong xs.length ++ body) ++ 0 :: rest := by
              simp
            rw [hsplit]
            simp only [decodeS]
            rw [decodeMapBlocks_one vt _ xs body rest [] ?_ hxe
              (hpairs (0 :: rest))]
            · rfl
            · simp only [List.length_append, List.length_cons]
              omega
  | aomap vt =>
      cases v <;> simp [conformsB] at hconf
      case vmap xs =>
        have hpc : conformsPairs vt xs = true := hconf.2
        have hszl : sizeOf vt + sizeOf xs + 2 ≤ n := by
          have h1 : sizeOf (AvSchema.aomap vt) = 1 + sizeOf vt := by simp
          have h2 : sizeOf (AvValue.vmap xs) = 1 + sizeOf xs := by simp
          omega
        have hlist : ∀ (ys : List (List Nat × AvValue)),
            sizeOf ys ≤ sizeOf xs → conformsPairs vt ys = true →
            ∃ body, encodePairs vt ys = some body ∧
              ∀ tail, decodePairs vt ys.length (body ++ tail) =
                .ok (ys, tail) := by
          intro ys
          induction ys with
          | nil =>
              intro _ _
              exact ⟨[], by simp [encodePairs], fun tail => by
                simp [decodePairs]⟩
          | cons kv ys' ihy =>
              intro hb hc
              obtain ⟨k, x⟩ := kv
              have hx : conformsB vt x = true := by
                have := hc
                simp [conformsPairs] at this
                exact this.1
              have hys : conformsPairs vt ys' = true := by
                have := hc
                simp [conformsPairs] at this
                exact this.2
              have hszc : sizeOf ((k, x) :: ys') =
                  1 + (1 + sizeOf k + sizeOf x) + sizeOf ys' := by
                simp
              rw [hszc] at hb
              obtain ⟨e1, he1, hd1⟩ :=
                ih (sizeOf vt + sizeOf x) (by omega) vt x (le_refl _) hx
              obtain ⟨body', hb', hd'⟩ := ihy (by omega) hys
              refine ⟨writeUtf8 k ++ e1 ++ body', ?_, fun tail => ?_⟩
              · simp [encodePairs, he1, hb']
              · show decodePairs vt (ys'.length + 1)
                  ((writeUtf8 k ++ e1 ++ body') ++ tail) =
                    .ok ((k, x) :: ys', tail)
                unfold decodePairs
                rw [List.append_assoc, List.append_assoc,
                  readUtf8_writeUtf8]
                show (match decodeS vt (e1 ++ (body' ++ tail)) with
                      | .error e => Except.error e
                      | .ok (v, r2) =>
                          match decodePairs vt ys'.length r2 with
                          | .error e => Except.error e
                          | .ok (ps, r3) => Except.ok ((k, v) :: ps, r3)) =
                    Except.ok ((k, x) :: ys', tail)
                rw [hd1]
                show (match decodePairs vt ys'.length (body' ++ tail) with
                      | .error e => Except.error e
                      | .ok (ps, r3) => Except.ok ((k, x) :: ps, r3)) =
                    Except.ok ((k, x) :: ys', tail)
                rw [hd' tail]
        obtain ⟨body, hbody, hpairs⟩ := hlist xs (le_refl _) hpc
        refine ⟨(if xs.length = 0 then [] else writeLong xs.length ++ body) ++
          writeLong 0, ?_, fun rest => ?_⟩
        · simp [encodeS, hbody]
        · by_cases hxe : xs = []
          · subst hxe
            have hbe : body = [] := by
              have h0 : encodePairs vt ([] : List (List Nat × AvValue)) =
                  some [] := by
                unfold encodePairs
                rfl
              rw [h0] at hbody
              exact (Option.some_inj.mp hbody).symm
            subst hbe
            rw [writeLong_zero]
            show decodeS (.aomap vt) ([0] ++ rest) = .ok (.vmap [], rest)
            simp only [decodeS]
            rw [show ([0] ++ rest : List Nat) = 0 :: rest from rfl]
            rw [decodeMapBlocks_term vt _ rest [] (by omega)]
          · rw [if_neg (by simpa using hxe), writeLong_zero]
            have hsplit :
                ((writeLong xs.length ++ body) ++ [0]) ++ rest =
                  (writeLong xs.length ++ body) ++ 0 :: rest := by
              simp
            rw [hsplit]
            simp only [decodeS]
            rw [decodeMapBlocks_one vt _ xs body rest [] ?_ hxe
              (hpairs (0 :: rest))]
            · rfl
            · simp only [List.length_append, List.length_cons]
              omega
  | aunion branches =>
      have hcu : conformsUnion branches v = true := by
        simpa [conformsB] using hconf
      have hu : ∀ (suf pre : List AvSchema), branches = pre ++ suf →
          conformsUnion suf v = true →
          ∃ e, encodeUnion suf pre.length v = some e ∧
            ∀ rest, decodeS (.aunion branches) (e ++ rest) =
              .ok (v, rest) := by
        intro suf
        induction suf with
        | nil =>
            intro pre _ hc
            simp [conformsUnion] at hc
        | cons b suf' ihs =>
            intro pre heq hc
            by_cases hm : matchesBranch v b
            · have hcb : conformsB b v = true := by
                simpa [conformsUnion, hm] using hc
              have hmem : b ∈ branches := by
                rw [heq]
                simp
              have hblt : sizeOf b + sizeOf v < n := by
                have hb1 := List.sizeOf_lt_of_mem hmem
                have h1 : sizeOf (AvSchema.aunion branches) =
                    1 + sizeOf branches := by simp
                omega
              obtain ⟨eb, heb, hdb⟩ :=
                ih (sizeOf b + sizeOf v) hblt b v (le_refl _) hcb
              refine ⟨writeLong pre.length ++ eb, ?_, fun rest => ?_⟩
              · simp [encodeUnion, hm, heb]
              · simp only [decodeS]
                rw [List.append_assoc, readLong_writeLong]
                show (if ((pre.length : Int)) < 0 then
                        Except.error DecErr.badUnion
                      else decodeUnionBranch branches
                        ((pre.length : Int)).toNat (eb ++ rest)) =
                    Except.ok (v, rest)
                rw [if_neg (by omega)]
                rw [show ((pre.length : Int)).toNat = pre.length from by
                  omega]
                rw [heq, decodeUnionBranch_append pre b suf' (eb ++ rest)]
                exact hdb rest
            · have hc' : conformsUnion suf' v = true := by
                simpa [conformsUnion, hm] using hc
              obtain ⟨e, he, hd⟩ := ihs (pre ++ [b]) (by rw [heq]; simp) hc'
              refine ⟨e, ?_, hd⟩
              rw [show encodeUnion (b :: suf') pre.length v =
                  encodeUnion suf' (pre.length + 1) v from by
                simp [encodeUnion, hm]]
              simpa using he
      obtain ⟨e, he, hd⟩ := hu branches [] rfl hcu
      refine ⟨e, ?_, hd⟩
      cases v <;> simpa [encodeS] using he
  | arecord name flds =>
      cases v <;> simp [conformsB] at hconf
      case vrecord name' vs =>
        obtain ⟨hname, hfc⟩ := hconf
        have hszr : sizeOf flds + sizeOf vs + 2 ≤ n := by
          have h1 : sizeOf (AvSchema.arecord name flds) =
              1 + sizeOf name + sizeOf flds := by simp
          have h2 : sizeOf (AvValue.vrecord name' vs) =
              1 + sizeOf name' + sizeOf vs := by simp
          have h3 : 1 ≤ sizeOf name := by
            cases name
            simp
          have h4 : 1 ≤ sizeOf name' := by
            cases name'
            simp
          omega
        have hfields : ∀ (fl : List (String × AvSchema)) (ws : List AvValue),
            sizeOf fl ≤ sizeOf flds → sizeOf ws ≤ sizeOf vs →
            conformsFields fl ws = true →
            ∃ body, encodeFields fl ws = some body ∧
              ∀ tail, decodeFieldsD fl (body ++ tail) = .ok (ws, tail) := by
          intro fl
          induction fl with
          | nil =>
              intro ws _ _ hc
              cases ws with
              | nil =>
                  exact ⟨[], by simp [encodeFields], fun tail => by
                    simp [decodeFieldsD]⟩
              | cons w ws' => simp [conformsFields] at hc
          | cons p fl' ihf =>
              intro ws hbf hbw hc
              obtain ⟨fn, fs⟩ := p
              cases ws with
              | nil => simp [conformsFields] at hc
              | cons w ws' =>
                  have hw : conformsB fs w = true := by
                    have := hc
                    simp [conformsFields] at this
                    exact this.1
                  have hws : conformsFields fl' ws' = true := by
                    have := hc
                    simp [conformsFields] at this
                    exact this.2
                  have hszf : sizeOf ((fn, fs) :: fl') =
                      1 + (1 + sizeOf fn + sizeOf fs) + sizeOf fl' := by
                    simp
                  have hszw : sizeOf (w :: ws') =
                      1 + sizeOf w + sizeOf ws' := by simp
                  rw [hszf] at hbf
                  rw [hszw] at hbw
                  obtain ⟨e1, he1, hd1⟩ :=
                    ih (sizeOf fs + sizeOf w) (by omega) fs w (le_refl _) hw
                  obtain ⟨body', hb', hd'⟩ :=
                    ihf ws' (by omega) (by omega) hws
                  refine ⟨e1 ++ body', ?_, fun tail => ?_⟩
                  · simp [encodeFields, he1, hb']
                  · show decodeFieldsD ((fn, fs) :: fl')
                      ((e1 ++ body') ++ tail) = .ok (w :: ws', tail)
                    unfold decodeFieldsD
                    rw [List.append_assoc, hd1]
                    show (match decodeFieldsD fl' (body' ++ tail) with
                          | .error e => Except.error e
                          | .ok (vs, r2) => Except.ok (w :: vs, r2)) =
                        Except.ok (w :: ws', tail)
                    rw [hd' tail]
        obtain ⟨body, hbody, hflds⟩ :=
          hfields flds vs (le_refl _) (le_refl _) hfc
        refine ⟨body, ?_, fun rest => ?_⟩
        · simp [encodeS, hbody]
        · subst hname
          simp only [decodeS]
          rw [hflds rest]

/-- Claim C3: for every schema `S` and conforming value `v`, the encoder
succeeds and decoding the encoding yields `v` back (with any trailing input
untouched); and equal values encode to byte-for-byte identical output. -/
theorem codec_round_trip (s : AvSchema) (v : AvValue)
    (h : conformsB s v = true) :
    (∃ e, encodeS s v = some e ∧
      ∀ rest, decodeS s (e ++ rest) = .ok (v, rest)) ∧
    (∀ v1 v2 : AvValue, v1 = v2 → encodeS s v1 = encodeS s v2) :=
  ⟨codec_aux (sizeOf s + sizeOf v) s v (le_refl _) h,
   fun _ _ he => by rw [he]⟩

/-- C3 witness: a record with a string field and an int-array field. -/
theorem codec_round_trip_witness :
    (∃ e, encodeS (.arecord "M.item" [("name", .astring),
        ("tags", .aarray .aint)])
      (.vrecord "M.item" [.vstring [104, 105],
        .varray [.vint 1, .vint 2]]) = some e ∧
      ∀ rest, decodeS (.arecord "M.item" [("name", .astring),
          ("tags", .aarray .aint)]) (e ++ rest) =
        .ok (.vrecord "M.item" [.vstring [104, 105],
          .varray [.vint 1, .vint 2]], rest)) ∧
    (∀ v1 v2 : AvValue, v1 = v2 →
      encodeS (.arecord "M.item" [("name", .astring),
        ("tags", .aarray .aint)]) v1 =
      encodeS (.arecord "M.item" [("name", .astring),
        ("tags", .aarray .aint)]) v2) :=
  codec_round_trip _ _ (by
    simp [conformsB, conformsFields, conformsList])

end MDB
